import Mathlib

/-!
Verification of the `synapses_push_spikes` code-generation template of the
brian2 repository (src/brian2/devices/cpp_standalone/templates/
synapses_push_spikes.cpp) together with the spike-delivery queue it drives.

The template's generated per-step function is three statements:
  queue->advance();
  queue->push(_spikespace, _spikespace[_num_spikespace-1]);
  queue->peek();
The queue itself (delay table, ring buffer of bins, cursor) is not part of
this source tree; its operations are modelled from the specification and
marked as such in their doc comments.
-/

namespace Brian2

/-! ## Ring buffer of pending events -/

/-- Read bin `i` of a bin list (out of range reads the empty bin). -/
def getBin {α : Type} (bs : List (List α)) (i : Nat) : List α := bs.getD i []

/-- Replace bin `i` of a bin list (out of range is a no-op). -/
def setBin {α : Type} : List (List α) → Nat → List α → List (List α)
  | [], _, _ => []
  | _ :: bs, 0, v => v :: bs
  | b :: bs, n+1, v => b :: setBin bs n v

/-- Modelled from the spec: the queue's ring buffer — a fixed-size sequence of
bins, each a growable unordered collection of scheduled payloads, plus the
cursor `currentStep mod bufferLength`.  The payload type is a parameter so
that the same operations can be run on plain synapse targets or on
instrumented (tagged) events. -/
structure SpikeQueue (α : Type) where
  bufferLength : Nat
  cursor : Nat
  bins : List (List α)

/-- Modelled from the spec: a freshly constructed queue — buffer sized to
`L` (= maxDelay+1), all bins emptied, cursor at 0. -/
def emptyQueue (α : Type) (L : Nat) : SpikeQueue α :=
  ⟨L, 0, List.replicate L []⟩

/-- Modelled from the spec: `advance()` empties the bin being vacated (the one
that will next represent the new maximum-delay horizon, i.e. the bin the
cursor is leaving) and moves the cursor to `(cursor+1) mod bufferLength`. -/
def SpikeQueue.advance {α : Type} (q : SpikeQueue α) : SpikeQueue α :=
  { q with
    bins := setBin q.bins q.cursor []
    cursor := (q.cursor + 1) % q.bufferLength }

/-- Modelled from the spec: append one payload `x` with delay `d` to bin
`(cursor + d) mod bufferLength`. -/
def SpikeQueue.pushOne {α : Type} (q : SpikeQueue α) (x : α) (d : Nat) :
    SpikeQueue α :=
  { q with
    bins := setBin q.bins ((q.cursor + d) % q.bufferLength)
      (getBin q.bins ((q.cursor + d) % q.bufferLength) ++ [x]) }

/-- Push a whole list of (payload, delay) events, in order. -/
def SpikeQueue.pushEvents {α : Type} (q : SpikeQueue α)
    (evs : List (α × Nat)) : SpikeQueue α :=
  evs.foldl (fun q' p => q'.pushOne p.1 p.2) q

/-- Modelled from the spec: `peek()` returns the current bin's contents (the
collection due for delivery at the current step) without consuming or
clearing it; the state after the call is returned explicitly to make the
absence of mutation a theorem about the definition. -/
def SpikeQueue.peekS {α : Type} (q : SpikeQueue α) :
    List α × SpikeQueue α :=
  (getBin q.bins q.cursor, q)

/-! ## Delay table -/

/-- Modelled from the spec: per-source start offsets into the concatenated
backing store, built by scanning the per-source delay lists. -/
def buildStarts : List (List (Nat × Nat)) → Nat → List Nat
  | [], a => [a]
  | l :: ls, a => a :: buildStarts ls (a + l.length)

/-- Modelled from the spec: the delay table — per-source delay lists
concatenated into a single backing store of (target, delay) pairs, with
per-source start offsets. -/
structure DelayTable where
  starts : List Nat
  backing : List (Nat × Nat)

/-- Build the table from the per-source lists of (target, delay) pairs. -/
def buildTable (perSource : List (List (Nat × Nat))) : DelayTable :=
  ⟨buildStarts perSource 0, perSource.flatten⟩

/-- Number of sources the table covers. -/
def DelayTable.numSources (T : DelayTable) : Nat := T.starts.length - 1

/-- Modelled from the spec: `lookup(source)` returns the source's sequence of
(target, delay) pairs, the slice of the backing store between its start
offset and the next one. -/
def DelayTable.lookup (T : DelayTable) (s : Nat) : List (Nat × Nat) :=
  (T.backing.drop (T.starts.getD s 0)).take
    (T.starts.getD (s+1) 0 - T.starts.getD s 0)

/-- `lookup` with the table state after the call returned explicitly, to make
read-onlyness a theorem about the definition. -/
def DelayTable.lookupS (T : DelayTable) (s : Nat) :
    List (Nat × Nat) × DelayTable :=
  (T.lookup s, T)

/-- Modelled from the spec: `push(firingSources)` — for each source in order,
for each (target, delay) pair in its lookup result in order, append the
target to bin `(cursor + delay) mod bufferLength`. -/
def SpikeQueue.pushSources (q : SpikeQueue Nat) (T : DelayTable)
    (srcs : List Nat) : SpikeQueue Nat :=
  srcs.foldl (fun q' s => (T.lookup s).foldl (fun q'' p => q''.pushOne p.1 p.2) q') q

/-- Modelled from the spec: the two-argument `push(spikespace, count)` used by
the generated code — the firing set is the first `count` entries of the
spikespace backing array. -/
def SpikeQueue.pushSpikes (q : SpikeQueue Nat) (T : DelayTable)
    (spikespace : List Int) (count : Int) : SpikeQueue Nat :=
  q.pushSources T ((spikespace.take count.toNat).map Int.toNat)

/-! ## The generated per-step function (from the source template) -/

/-- The body of `_run_{{codeobj_name}}` from
src/brian2/devices/cpp_standalone/templates/synapses_push_spikes.cpp:
advance, then push the spikespace with the count read from the last element
of the spikespace array, then peek (whose result is discarded). -/
def runStep (T : DelayTable) (q : SpikeQueue Nat) (spikespace : List Int)
    (numSpikespace : Nat) : SpikeQueue Nat :=
  let q1 := q.advance
  let q2 := q1.pushSpikes T spikespace (spikespace.getD (numSpikespace - 1) 0)
  let r := q2.peekS
  r.2

/-! ## Whole-run driver and analysis machinery -/

/-- Flatten a firing set into the (target, delay) events its push produces:
for each source in order, its whole lookup list in order. -/
def expandEvents (T : DelayTable) (srcs : List Nat) : List (Nat × Nat) :=
  srcs.flatMap (fun s => T.lookup s)

/-- The firing set the generated code hands to `push`: the first `count`
entries of the spikespace array, where `count` is read from the array's last
element (index `numSpikespace - 1`). -/
def firingAt (SP : Nat → List Int) (NS : Nat → Nat) (t : Nat) : List Nat :=
  ((SP t).take ((SP t).getD (NS t - 1) 0).toNat).map Int.toNat

/-- The whole simulation as the source drives it: the generated per-step
function applied once per step to the step's spikespace. -/
def runSim (T : DelayTable) (L : Nat) (SP : Nat → List Int) (NS : Nat → Nat) :
    Nat → SpikeQueue Nat
  | 0 => emptyQueue Nat L
  | k+1 => runStep T (runSim T L SP NS k) (SP k) (NS k)

/-- One step of the queue on an arbitrary (payload, delay) event list:
advance, then push — exactly the state change the generated function makes
(its peek does not change state). -/
def stepEvents {α : Type} (q : SpikeQueue α) (evs : List (α × Nat)) :
    SpikeQueue α :=
  q.advance.pushEvents evs

/-- The queue state after `k` steps on the event stream `E`, starting from a
fresh buffer of length `L`. -/
def runFrom {α : Type} (E : Nat → List (α × Nat)) (L : Nat) :
    Nat → SpikeQueue α
  | 0 => emptyQueue α L
  | k+1 => stepEvents (runFrom E L k) (E k)

/-- What `peek()` returns at step `k` of the run (after that step's advance
and push). -/
def outputAt {α : Type} (E : Nat → List (α × Nat)) (L k : Nat) : List α :=
  ((runFrom E L (k+1)).peekS).1

/-- The payloads of `l` pushed at step `t` whose delivery-bin index is `m`
(their delivery peek happens at step `m - 1`). -/
def dueFrom {α : Type} (l : List (α × Nat)) (t m : Nat) : List α :=
  l.filterMap (fun p => if t + p.2 + 1 = m then some p.1 else none)

/-- All payloads pushed before step `n` whose delivery-bin index is `m`, in
push order. -/
def binContents {α : Type} (E : Nat → List (α × Nat)) : Nat → Nat → List α
  | 0, _ => []
  | n+1, m => binContents E n m ++ dueFrom (E n) n m

/-- The ring-buffer invariant after `k` completed steps: buffer length and
bin count are `L`, the cursor sits at `k mod L`, and bin `(k + d) mod L`
holds exactly the payloads scheduled for delivery-bin index `k + d`. -/
def QueueInv {α : Type} (E : Nat → List (α × Nat)) (L k : Nat)
    (q : SpikeQueue α) : Prop :=
  q.bufferLength = L ∧ q.bins.length = L ∧ q.cursor = k % L ∧
    ∀ d, d < L → getBin q.bins ((k + d) % L) = binContents E k (k + d)

/-! ## Event instrumentation (tags identify individual spikes) -/

/-- A tagged spike: (firing step, source, synapse position, target). -/
def Tag : Type := Nat × Nat × Nat × Nat

instance : DecidableEq Tag := by
  unfold Tag
  infer_instance

/-- The target component of a tag. -/
def tagTarget (p : Tag) : Nat := p.2.2.2

/-- Tag each (target, delay) pair of a lookup list with the firing step `t`,
the source `s` and its position in the list (starting at `j`). -/
def tagSyn (t s : Nat) : Nat → List (Nat × Nat) → List (Tag × Nat)
  | _, [] => []
  | j, p :: ps => ((t, s, j, p.1), p.2) :: tagSyn t s (j+1) ps

/-- The instrumented event stream of a run: each spike of the firing set
`F t` expands to its tagged synapses. -/
def taggedE (T : DelayTable) (F : Nat → List Nat) (t : Nat) :
    List (Tag × Nat) :=
  (F t).flatMap (fun s => tagSyn t s 0 (T.lookup s))

/-- Map a payload function over every bin of a queue. -/
def mapQueue {α β : Type} (f : α → β) (q : SpikeQueue α) : SpikeQueue β :=
  ⟨q.bufferLength, q.cursor, q.bins.map (List.map f)⟩

/-! ## Conservation bookkeeping -/

/-- Targets of every event handed to `push` during steps `0 .. k-1`. -/
def pushedUpTo {α : Type} (E : Nat → List (α × Nat)) : Nat → List α
  | 0 => []
  | k+1 => pushedUpTo E k ++ (E k).map Prod.fst

/-- Everything `peek()` returned during steps `0 .. k-1`. -/
def deliveredUpTo {α : Type} (E : Nat → List (α × Nat)) (L : Nat) :
    Nat → List α
  | 0 => []
  | k+1 => deliveredUpTo E L k ++ outputAt E L k

/-- Payloads pushed before step `n` whose delivery step is `k` or later —
the events still undelivered when step `k` begins. -/
def liveAt {α : Type} (E : Nat → List (α × Nat)) (k : Nat) : Nat → List α
  | 0 => []
  | n+1 => liveAt E k n ++
      (E n).filterMap (fun p => if k ≤ n + p.2 then some p.1 else none)

/-! ## Call trace of the generated function -/

/-- One call on the queue object, as the generated code makes it. -/
inductive QueueCall where
  | advanceCall : QueueCall
  | pushCall (spikespace : List Int) (count : Int) : QueueCall
  | peekCall : QueueCall
deriving DecidableEq

/-- Interpret one queue call against a queue state. -/
def applyCall (T : DelayTable) (q : SpikeQueue Nat) : QueueCall → SpikeQueue Nat
  | .advanceCall => q.advance
  | .pushCall sp c => q.pushSpikes T sp c
  | .peekCall => q.peekS.2

/-- The calls the generated per-step function makes, in source order
(lines 24-26 of the template). -/
def runStepCalls (spikespace : List Int) (numSpikespace : Nat) :
    List QueueCall :=
  [.advanceCall,
   .pushCall spikespace (spikespace.getD (numSpikespace - 1) 0),
   .peekCall]

/-- Run a call list left to right. -/
def execCalls (T : DelayTable) (q : SpikeQueue Nat) (cs : List QueueCall) :
    SpikeQueue Nat :=
  cs.foldl (applyCall T) q

/-- Repeated `peek()`s: the list of results and the final state. -/
def peekN {α : Type} (q : SpikeQueue α) : Nat → List (List α) × SpikeQueue α
  | 0 => ([], q)
  | n+1 =>
    let r := q.peekS
    let rest := peekN r.2 n
    (r.1 :: rest.1, rest.2)

/-! ## Ambient program state around the generated function -/

/-- The state the generated function can see: the spikespace array and its
size, the queue it drives, and the rest of the program state (abstract). -/
structure World (σ : Type) where
  spikespace : List Int
  numSpikespace : Nat
  queue : SpikeQueue Nat
  rest : σ

/-- The generated function as a state transformer on the ambient state: a
void function whose only effect is on the queue. -/
def runStepWorld (T : DelayTable) {σ : Type} (w : World σ) : World σ × Unit :=
  ({ w with queue := runStep T w.queue w.spikespace w.numSpikespace }, ())

/-! ## Basic bin lemmas -/

theorem length_setBin {α : Type} (bs : List (List α)) (i : Nat) (v : List α) :
    (setBin bs i v).length = bs.length := by
  induction bs generalizing i with
  | nil => rfl
  | cons b bs ih =>
    cases i with
    | zero => rfl
    | succ n => simp [setBin, ih]

theorem getBin_setBin_eq {α : Type} (bs : List (List α)) (i : Nat)
    (v : List α) (h : i < bs.length) : getBin (setBin bs i v) i = v := by
  induction bs generalizing i with
  | nil => simp at h
  | cons b bs ih =>
    cases i with
    | zero => rfl
    | succ n =>
      simp only [List.length_cons, Nat.succ_lt_succ_iff] at h
      simp only [setBin, getBin, List.getD, List.getElem?_cons_succ]
      exact ih n h

theorem getBin_setBin_ne {α : Type} (bs : List (List α)) (i j : Nat)
    (v : List α) (h : i ≠ j) : getBin (setBin bs i v) j = getBin bs j := by
  induction bs generalizing i j with
  | nil => cases i <;> rfl
  | cons b bs ih =>
    cases i with
    | zero =>
      cases j with
      | zero => exact absurd rfl h
      | succ m => rfl
    | succ n =>
      cases j with
      | zero => rfl
      | succ m =>
        have h' : n ≠ m := fun hnm => h (by rw [hnm])
        simp only [setBin, getBin, List.getD, List.getElem?_cons_succ]
        exact ih n m h'

theorem getBin_replicate {α : Type} (n i : Nat) :
    getBin (List.replicate n ([] : List α)) i = [] := by
  induction n generalizing i with
  | zero => cases i <;> rfl
  | succ m ih =>
    cases i with
    | zero => rfl
    | succ j =>
      simp only [List.replicate, getBin, List.getD, List.getElem?_cons_succ]
      exact ih j

/-! ## Push characterization -/

theorem pushEvents_bufferLength {α : Type} (evs : List (α × Nat))
    (q : SpikeQueue α) :
    (q.pushEvents evs).bufferLength = q.bufferLength := by
  induction evs generalizing q with
  | nil => rfl
  | cons p evs ih => exact ih (q.pushOne p.1 p.2)

theorem pushEvents_cursor {α : Type} (evs : List (α × Nat))
    (q : SpikeQueue α) : (q.pushEvents evs).cursor = q.cursor := by
  induction evs generalizing q with
  | nil => rfl
  | cons p evs ih => exact ih (q.pushOne p.1 p.2)

theorem pushEvents_bins_length {α : Type} (evs : List (α × Nat))
    (q : SpikeQueue α) :
    (q.pushEvents evs).bins.length = q.bins.length := by
  induction evs generalizing q with
  | nil => rfl
  | cons p evs ih =>
    rw [show q.pushEvents (p :: evs) = (q.pushOne p.1 p.2).pushEvents evs from rfl,
      ih, SpikeQueue.pushOne, length_setBin]

theorem getBin_pushEvents {α : Type} (evs : List (α × Nat))
    (q : SpikeQueue α) (hlen : q.bins.length = q.bufferLength)
    (hL : 0 < q.bufferLength) (b : Nat) :
    getBin (q.pushEvents evs).bins b = getBin q.bins b ++
      evs.filterMap
        (fun p => if (q.cursor + p.2) % q.bufferLength = b then some p.1 else none) := by
  induction evs generalizing q with
  | nil => simp [SpikeQueue.pushEvents]
  | cons p evs ih =>
    have hstep : q.pushEvents (p :: evs) = (q.pushOne p.1 p.2).pushEvents evs := rfl
    have hlen' : (q.pushOne p.1 p.2).bins.length = (q.pushOne p.1 p.2).bufferLength := by
      rw [SpikeQueue.pushOne, length_setBin]
      exact hlen
    have hL' : 0 < (q.pushOne p.1 p.2).bufferLength := hL
    rw [hstep, ih (q.pushOne p.1 p.2) hlen' hL']
    have hcursor : (q.pushOne p.1 p.2).cursor = q.cursor := rfl
    have hBL : (q.pushOne p.1 p.2).bufferLength = q.bufferLength := rfl
    rw [hcursor, hBL, List.filterMap_cons]
    by_cases hb : (q.cursor + p.2) % q.bufferLength = b
    · have hmem : b < q.bins.length := by
        rw [hlen, ← hb]
        exact Nat.mod_lt _ hL
      have : getBin (q.pushOne p.1 p.2).bins b = getBin q.bins b ++ [p.1] := by
        rw [SpikeQueue.pushOne, hb]
        exact getBin_setBin_eq q.bins b _ hmem
      rw [this, if_pos hb]
      simp
    · have : getBin (q.pushOne p.1 p.2).bins b = getBin q.bins b := by
        rw [SpikeQueue.pushOne]
        exact getBin_setBin_ne q.bins _ b _ hb
      rw [this, if_neg hb]

/-! ## Modular-arithmetic helpers -/

theorem mod_shift_inj {L : Nat} (k : Nat) {d e : Nat} (h1 : e < L) (h2 : d < L)
    (h : (k + e) % L = (k + d) % L) : e = d := by
  have h2' : Nat.ModEq L e d := Nat.ModEq.add_left_cancel' k h
  unfold Nat.ModEq at h2'
  rwa [Nat.mod_eq_of_lt h1, Nat.mod_eq_of_lt h2] at h2'

/-! ## The ring-buffer invariant -/

theorem binContents_high {α : Type} {E : Nat → List (α × Nat)} {L : Nat}
    (Hd : ∀ t p, p ∈ E t → p.2 < L) (n m : Nat) (h : n + L ≤ m) :
    binContents E n m = [] := by
  induction n with
  | zero => rfl
  | succ n ih =>
    rw [binContents, ih (by omega), List.nil_append, dueFrom,
      List.filterMap_eq_nil_iff]
    intro p hp
    have hp2 : p.2 < L := Hd n p hp
    rw [if_neg (by omega)]

theorem advance_inv {α : Type} {E : Nat → List (α × Nat)} {L k : Nat}
    {q : SpikeQueue α} (Hd : ∀ t p, p ∈ E t → p.2 < L)
    (hq : QueueInv E L k q) :
    q.advance.bufferLength = L ∧ q.advance.bins.length = L ∧
    q.advance.cursor = (k + 1) % L ∧
    ∀ d, d < L →
      getBin q.advance.bins ((k + 1 + d) % L) = binContents E k (k + 1 + d) := by
  obtain ⟨hB, hlen, hc, hbins⟩ := hq
  refine ⟨hB, ?_, ?_, ?_⟩
  · rw [SpikeQueue.advance, length_setBin]
    exact hlen
  · rw [SpikeQueue.advance, hc, hB, Nat.mod_add_mod]
  · intro d hd
    have hL : 0 < L := Nat.lt_of_le_of_lt (Nat.zero_le d) hd
    by_cases hdL : d + 1 = L
    · have hms : k + 1 + d = k + L := by omega
      rw [SpikeQueue.advance]
      rw [hms, Nat.add_mod_right, hc]
      rw [getBin_setBin_eq q.bins (k % L) [] (by rw [hlen]; exact Nat.mod_lt _ hL)]
      exact (binContents_high Hd k (k + L) (Nat.le_refl _)).symm
    · have hd1 : d + 1 < L := Nat.lt_of_le_of_ne hd hdL
      have hms : k + 1 + d = k + (d + 1) := by omega
      have hne : k % L ≠ (k + 1 + d) % L := by
        intro heq
        rw [hms] at heq
        have h0 : (k + 0) % L = (k + (d + 1)) % L := by
          rw [Nat.add_zero]
          exact heq
        have := mod_shift_inj k hL hd1 h0
        omega
      rw [SpikeQueue.advance, hc]
      rw [getBin_setBin_ne q.bins (k % L) ((k + 1 + d) % L) [] hne, hms]
      exact hbins (d + 1) hd1

theorem runFrom_inv {α : Type} (E : Nat → List (α × Nat)) {L : Nat}
    (hL : 0 < L) (Hd : ∀ t p, p ∈ E t → p.2 < L) :
    ∀ k, QueueInv E L k (runFrom E L k) := by
  intro k
  induction k with
  | zero =>
    refine ⟨rfl, List.length_replicate L [], (Nat.zero_mod L).symm, ?_⟩
    intro d hd
    exact getBin_replicate L ((0 + d) % L)
  | succ k ih =>
    obtain ⟨aB, alen, ac, achar⟩ := advance_inv Hd ih
    have hstep : runFrom E L (k + 1) = (runFrom E L k).advance.pushEvents (E k) := rfl
    set A := (runFrom E L k).advance with hA
    have hlenA : A.bins.length = A.bufferLength := by rw [alen, aB]
    have hLA : 0 < A.bufferLength := by rw [aB]; exact hL
    refine ⟨?_, ?_, ?_, ?_⟩
    · rw [hstep, pushEvents_bufferLength]
      exact aB
    · rw [hstep, pushEvents_bins_length]
      exact alen
    · rw [hstep, pushEvents_cursor]
      exact ac
    · intro d hd
      rw [hstep, getBin_pushEvents (E k) A hlenA hLA, achar d hd, ac, aB]
      have hcongr : (E k).filterMap
          (fun p => if ((k + 1) % L + p.2) % L = (k + 1 + d) % L then some p.1 else none)
          = (E k).filterMap
          (fun p => if k + p.2 + 1 = k + 1 + d then some p.1 else none) := by
        refine List.filterMap_congr ?_
        intro p hp
        have hp2 : p.2 < L := Hd k p hp
        by_cases hpd : p.2 = d
        · rw [if_pos, if_pos (by omega)]
          rw [hpd, Nat.mod_add_mod]
        · rw [if_neg, if_neg (by omega)]
          intro heq
          rw [Nat.mod_add_mod] at heq
          exact hpd (mod_shift_inj (k + 1) hp2 hd heq)
      rw [hcongr]
      rfl

theorem outputAt_eq {α : Type} (E : Nat → List (α × Nat)) {L : Nat}
    (hL : 0 < L) (Hd : ∀ t p, p ∈ E t → p.2 < L) (k : Nat) :
    outputAt E L k = binContents E (k + 1) (k + 1) := by
  obtain ⟨hB, hlen, hc, hbins⟩ := runFrom_inv E hL Hd (k + 1)
  have h0 : getBin (runFrom E L (k + 1)).bins ((k + 1 + 0) % L)
      = binContents E (k + 1) (k + 1 + 0) := hbins 0 hL
  rw [Nat.add_zero] at h0
  rw [outputAt, SpikeQueue.peekS, hc]
  exact h0

/-! ## Membership characterizations -/

theorem mem_dueFrom {α : Type} {l : List (α × Nat)} {t m : Nat} {x : α} :
    x ∈ dueFrom l t m ↔ ∃ dl, (x, dl) ∈ l ∧ t + dl + 1 = m := by
  rw [dueFrom, List.mem_filterMap]
  constructor
  · rintro ⟨⟨a, b⟩, hp, hpx⟩
    dsimp only at hpx
    by_cases hc : t + b + 1 = m
    · rw [if_pos hc, Option.some.injEq] at hpx
      refine ⟨b, ?_, hc⟩
      rwa [hpx] at hp
    · rw [if_neg hc] at hpx
      exact absurd hpx (by simp)
  · rintro ⟨dl, hmem, hc⟩
    exact ⟨(x, dl), hmem, by simp [hc]⟩

theorem mem_binContents {α : Type} {E : Nat → List (α × Nat)} {x : α}
    {n m : Nat} :
    x ∈ binContents E n m ↔ ∃ t, t < n ∧ x ∈ dueFrom (E t) t m := by
  induction n with
  | zero => simp [binContents]
  | succ n ih =>
    rw [binContents, List.mem_append, ih]
    constructor
    · rintro (⟨t, ht, hx⟩ | hx)
      · exact ⟨t, by omega, hx⟩
      · exact ⟨n, by omega, hx⟩
    · rintro ⟨t, ht, hx⟩
      by_cases htn : t = n
      · exact Or.inr (htn ▸ hx)
      · exact Or.inl ⟨t, by omega, hx⟩

theorem mem_tagSyn {t s : Nat} {p : Tag} {dl : Nat} {j0 : Nat}
    {l : List (Nat × Nat)} :
    (p, dl) ∈ tagSyn t s j0 l ↔
      ∃ i tg, l.get? i = some (tg, dl) ∧ p = (t, s, j0 + i, tg) := by
  induction l generalizing j0 with
  | nil => simp [tagSyn]
  | cons q l ih =>
    rw [tagSyn, List.mem_cons, ih]
    constructor
    · rintro (heq | ⟨i, tg, hi, hp⟩)
      · have hp : p = (t, s, j0, q.1) := congrArg Prod.fst heq
        have hd : dl = q.2 := congrArg Prod.snd heq
        refine ⟨0, q.1, ?_, by rw [hp, Nat.add_zero]⟩
        rw [hd]
        rfl
      · have hs : j0 + (i + 1) = j0 + 1 + i := by omega
        exact ⟨i + 1, tg, hi, by rw [hp, hs]⟩
    · rintro ⟨i, tg, hi, hp⟩
      cases i with
      | zero =>
        have hq : q = (tg, dl) := by
          have : some q = some (tg, dl) := hi
          exact Option.some.inj this
        exact Or.inl (by rw [hp, hq, Nat.add_zero])
      | succ i' =>
        have hs : j0 + (i' + 1) = j0 + 1 + i' := by omega
        exact Or.inr ⟨i', tg, hi, by rw [hp, hs]⟩

theorem mem_taggedE {T : DelayTable} {F : Nat → List Nat} {t : Nat}
    {p : Tag} {dl : Nat} :
    (p, dl) ∈ taggedE T F t ↔
      ∃ s ∈ F t, (p, dl) ∈ tagSyn t s 0 (T.lookup s) := by
  rw [taggedE, List.mem_flatMap]

theorem taggedE_delay_lt {T : DelayTable} {F : Nat → List Nat} {L : Nat}
    (Hd : ∀ s p, p ∈ T.lookup s → p.2 < L) :
    ∀ t q, q ∈ taggedE T F t → q.2 < L := by
  rintro t ⟨p, dl⟩ hq
  obtain ⟨s, hs, hmem⟩ := List.mem_flatMap.mp hq
  obtain ⟨i, tg, hi, hp⟩ := mem_tagSyn.mp hmem
  exact Hd s (tg, dl) (List.get?_mem hi)

/-- Shared delivery lemma: in the instrumented run, the tagged spike fired at
step `t` from source `s` through its `j`-th synapse (target `tg`, delay `d`)
is in `peek()`'s result at step `u` exactly when `u = t + d`. -/
theorem tagged_delivery {T : DelayTable} {F : Nat → List Nat} {L : Nat}
    (hL : 0 < L) (Hd : ∀ s p, p ∈ T.lookup s → p.2 < L)
    {t s j tg d : Nat} (hs : s ∈ F t) (hj : (T.lookup s).get? j = some (tg, d))
    (u : Nat) :
    (((t, s, j, tg) : Tag) ∈ outputAt (taggedE T F) L u) ↔ u = t + d := by
  rw [outputAt_eq (taggedE T F) hL (taggedE_delay_lt Hd) u, mem_binContents]
  constructor
  · rintro ⟨t', ht', hx⟩
    obtain ⟨dl, hmem, hdue⟩ := mem_dueFrom.mp hx
    obtain ⟨s', hs', hts⟩ := mem_taggedE.mp hmem
    obtain ⟨i, tg', hi, hp⟩ := mem_tagSyn.mp hts
    have h1 : t' = t := (congrArg (fun x : Tag => x.1) hp).symm
    have h2 : s' = s := (congrArg (fun x : Tag => x.2.1) hp).symm
    have h3 : i = j := by
      have h4 := congrArg (fun x : Tag => x.2.2.1) hp
      simp only at h4
      omega
    rw [h2, h3] at hi
    have hdl : dl = d :=
      congrArg Prod.snd (Option.some.inj (hi.symm.trans hj))
    omega
  · rintro rfl
    refine ⟨t, by omega, ?_⟩
    rw [mem_dueFrom]
    refine ⟨d, ?_, by omega⟩
    rw [mem_taggedE]
    refine ⟨s, hs, ?_⟩
    rw [mem_tagSyn]
    exact ⟨j, tg, hj, by rw [Nat.zero_add]⟩

/-! ## Projection from the instrumented run to the real run -/

theorem getBin_map {α β : Type} (f : α → β) (bs : List (List α)) (i : Nat) :
    getBin (bs.map (List.map f)) i = (getBin bs i).map f := by
  induction bs generalizing i with
  | nil => cases i <;> rfl
  | cons b bs ih =>
    cases i with
    | zero => rfl
    | succ n =>
      simp only [List.map_cons, getBin, List.getD, List.getElem?_cons_succ]
      exact ih n

theorem setBin_map {α β : Type} (f : α → β) (bs : List (List α)) (i : Nat)
    (v : List α) :
    (setBin bs i v).map (List.map f) = setBin (bs.map (List.map f)) i (v.map f) := by
  induction bs generalizing i with
  | nil => rfl
  | cons b bs ih =>
    cases i with
    | zero => rfl
    | succ n => simp [setBin, ih]

theorem mapQueue_advance {α β : Type} (f : α → β) (q : SpikeQueue α) :
    (mapQueue f q).advance = mapQueue f q.advance := by
  simp [SpikeQueue.advance, mapQueue, setBin_map]

theorem mapQueue_pushOne {α β : Type} (f : α → β) (q : SpikeQueue α)
    (x : α) (d : Nat) :
    (mapQueue f q).pushOne (f x) d = mapQueue f (q.pushOne x d) := by
  simp [SpikeQueue.pushOne, mapQueue, setBin_map, getBin_map]

theorem mapQueue_pushEvents {α β : Type} (f : α → β) (evs : List (α × Nat))
    (q : SpikeQueue α) :
    (mapQueue f q).pushEvents (evs.map (fun p => (f p.1, p.2)))
      = mapQueue f (q.pushEvents evs) := by
  induction evs generalizing q with
  | nil => rfl
  | cons p evs ih =>
    have h1 : (mapQueue f q).pushEvents ((p :: evs).map (fun p => (f p.1, p.2)))
        = ((mapQueue f q).pushOne (f p.1) p.2).pushEvents
            (evs.map (fun p => (f p.1, p.2))) := rfl
    rw [h1, mapQueue_pushOne, ih]
    rfl

theorem runFrom_map {α β : Type} (f : α → β) (E : Nat → List (α × Nat))
    (L : Nat) : ∀ k,
    runFrom (fun t => (E t).map (fun p => (f p.1, p.2))) L k
      = mapQueue f (runFrom E L k) := by
  intro k
  induction k with
  | zero => simp [runFrom, emptyQueue, mapQueue, List.map_replicate]
  | succ k ih =>
    rw [runFrom, runFrom, ih, stepEvents, stepEvents, mapQueue_advance,
      mapQueue_pushEvents]

theorem outputAt_map {α β : Type} (f : α → β) (E : Nat → List (α × Nat))
    (L k : Nat) :
    outputAt (fun t => (E t).map (fun p => (f p.1, p.2))) L k
      = (outputAt E L k).map f := by
  rw [outputAt, outputAt, runFrom_map, SpikeQueue.peekS, SpikeQueue.peekS]
  exact getBin_map f _ _

theorem tagSyn_proj (t s : Nat) : ∀ (j0 : Nat) (l : List (Nat × Nat)),
    (tagSyn t s j0 l).map (fun p => (tagTarget p.1, p.2)) = l := by
  intro j0 l
  induction l generalizing j0 with
  | nil => rfl
  | cons q l ih =>
    simp only [tagSyn, List.map_cons, ih (j0 + 1)]
    rfl

theorem taggedE_proj (T : DelayTable) (F : Nat → List Nat) (t : Nat) :
    (taggedE T F t).map (fun p => (tagTarget p.1, p.2))
      = expandEvents T (F t) := by
  rw [taggedE, expandEvents, List.map_flatMap]
  congr 1
  funext s
  exact tagSyn_proj t s 0 (T.lookup s)

theorem pushSources_eq_pushEvents (q : SpikeQueue Nat) (T : DelayTable)
    (srcs : List Nat) :
    q.pushSources T srcs = q.pushEvents (expandEvents T srcs) := by
  induction srcs generalizing q with
  | nil => rfl
  | cons s srcs ih =>
    have h1 : q.pushSources T (s :: srcs)
        = ((T.lookup s).foldl (fun q' p => q'.pushOne p.1 p.2) q).pushSources T srcs := rfl
    have h2 : expandEvents T (s :: srcs) = T.lookup s ++ expandEvents T srcs := by
      rw [expandEvents, expandEvents, List.flatMap_cons]
    rw [h1, h2, ih, SpikeQueue.pushEvents, SpikeQueue.pushEvents,
      List.foldl_append]

theorem runStep_eq (T : DelayTable) (q : SpikeQueue Nat) (sp : List Int)
    (n : Nat) :
    runStep T q sp n = stepEvents q
      (expandEvents T ((sp.take (sp.getD (n - 1) 0).toNat).map Int.toNat)) := by
  rw [runStep, stepEvents, SpikeQueue.pushSpikes, pushSources_eq_pushEvents]
  rfl

theorem runSim_eq_runFrom (T : DelayTable) (L : Nat) (SP : Nat → List Int)
    (NS : Nat → Nat) : ∀ k,
    runSim T L SP NS k
      = runFrom (fun t => expandEvents T (firingAt SP NS t)) L k := by
  intro k
  induction k with
  | zero => rfl
  | succ k ih =>
    rw [runSim, ih, runStep_eq, runFrom]
    rfl

/-! ## Delay-table construction lemmas -/

theorem buildStarts_length (ls : List (List (Nat × Nat))) (a : Nat) :
    (buildStarts ls a).length = ls.length + 1 := by
  induction ls generalizing a with
  | nil => rfl
  | cons x xs ih => simp [buildStarts, ih]

theorem buildStarts_head (ls : List (List (Nat × Nat))) (a : Nat) :
    (buildStarts ls a).getD 0 0 = a := by
  cases ls <;> rfl

theorem buildStarts_getD_high (ls : List (List (Nat × Nat))) :
    ∀ (a i : Nat), ls.length < i → (buildStarts ls a).getD i 0 = 0 := by
  induction ls with
  | nil =>
    intro a i hi
    cases i with
    | zero => omega
    | succ n => cases n <;> rfl
  | cons x xs ih =>
    intro a i hi
    cases i with
    | zero => omega
    | succ n =>
      rw [buildStarts, List.getD_cons_succ]
      exact ih _ n (by simp at hi; omega)

theorem lookup_build_aux :
    ∀ (ls : List (List (Nat × Nat))) (a : Nat) (pre : List (Nat × Nat)),
      pre.length = a → ∀ s, s < ls.length →
      DelayTable.lookup ⟨buildStarts ls a, pre ++ ls.flatten⟩ s = ls.getD s [] := by
  intro ls
  induction ls with
  | nil =>
    intro a pre hpre s hs
    simp at hs
  | cons x xs ih =>
    intro a pre hpre s hs
    cases s with
    | zero =>
      rw [DelayTable.lookup]
      show ((pre ++ (x :: xs).flatten).drop ((buildStarts (x :: xs) a).getD 0 0)).take
        ((buildStarts (x :: xs) a).getD 1 0 - (buildStarts (x :: xs) a).getD 0 0)
        = (x :: xs).getD 0 []
      rw [buildStarts, List.getD_cons_zero, List.getD_cons_succ, buildStarts_head,
        List.flatten_cons, List.drop_left' hpre]
      have h1 : a + x.length - a = x.length := by omega
      rw [h1, List.take_left]
      rfl
    | succ s' =>
      have hpre' : (pre ++ x).length = a + x.length := by simp [hpre]
      have hmain := ih (a + x.length) (pre ++ x) hpre' s'
        (by simp at hs; omega)
      rw [DelayTable.lookup] at hmain ⊢
      rw [buildStarts, List.getD_cons_succ, List.getD_cons_succ,
        List.flatten_cons, ← List.append_assoc]
      exact hmain

theorem numSources_build (ps : List (List (Nat × Nat))) :
    (buildTable ps).numSources = ps.length := by
  rw [DelayTable.numSources, buildTable]
  show (buildStarts ps 0).length - 1 = ps.length
  rw [buildStarts_length]
  omega

theorem lookup_build (ps : List (List (Nat × Nat))) (s : Nat)
    (h : s < ps.length) : (buildTable ps).lookup s = ps.getD s [] :=
  lookup_build_aux ps 0 [] rfl s h

theorem lookup_build_high (ps : List (List (Nat × Nat))) (s : Nat)
    (h : ps.length ≤ s) : (buildTable ps).lookup s = [] := by
  rw [DelayTable.lookup]
  have h1 : (buildTable ps).starts.getD (s + 1) 0 = 0 :=
    buildStarts_getD_high ps 0 (s + 1) (by omega)
  rw [h1, Nat.zero_sub]
  rfl

/-! ## Conservation of events -/

theorem filterMap_due_split {α : Type} (t k : Nat) (l : List (α × Nat)) :
    ((l.filterMap (fun p => if k ≤ t + p.2 then some p.1 else none) : List α) : Multiset α)
      = (↑(l.filterMap (fun p => if t + p.2 + 1 = k + 1 then some p.1 else none)) : Multiset α)
        + ↑(l.filterMap (fun p => if k + 1 ≤ t + p.2 then some p.1 else none)) := by
  induction l with
  | nil => rfl
  | cons p l ih =>
    rw [List.filterMap_cons, List.filterMap_cons, List.filterMap_cons]
    rcases Nat.lt_trichotomy (t + p.2) k with h | h | h
    · rw [if_neg (show ¬ k ≤ t + p.2 by omega),
        if_neg (show ¬ t + p.2 + 1 = k + 1 by omega),
        if_neg (show ¬ k + 1 ≤ t + p.2 by omega)]
      exact ih
    · rw [if_pos (show k ≤ t + p.2 by omega),
        if_pos (show t + p.2 + 1 = k + 1 by omega),
        if_neg (show ¬ k + 1 ≤ t + p.2 by omega)]
      dsimp only
      rw [← Multiset.cons_coe, ← Multiset.cons_coe, Multiset.cons_add, ih]
    · rw [if_pos (show k ≤ t + p.2 by omega),
        if_neg (show ¬ t + p.2 + 1 = k + 1 by omega),
        if_pos (show k + 1 ≤ t + p.2 by omega)]
      dsimp only
      rw [← Multiset.cons_coe, ← Multiset.cons_coe, Multiset.add_cons, ih]

theorem map_fst_split {α : Type} (k : Nat) (l : List (α × Nat)) :
    ((l.map Prod.fst : List α) : Multiset α)
      = (↑(l.filterMap (fun p => if k + p.2 + 1 = k + 1 then some p.1 else none)) : Multiset α)
        + ↑(l.filterMap (fun p => if k + 1 ≤ k + p.2 then some p.1 else none)) := by
  induction l with
  | nil => rfl
  | cons p l ih =>
    rw [List.map_cons, List.filterMap_cons, List.filterMap_cons]
    by_cases h : p.2 = 0
    · rw [if_pos (show k + p.2 + 1 = k + 1 by omega),
        if_neg (show ¬ k + 1 ≤ k + p.2 by omega)]
      dsimp only
      rw [← Multiset.cons_coe, ← Multiset.cons_coe, Multiset.cons_add, ih]
    · rw [if_neg (show ¬ k + p.2 + 1 = k + 1 by omega),
        if_pos (show k + 1 ≤ k + p.2 by omega)]
      dsimp only
      rw [← Multiset.cons_coe, ← Multiset.cons_coe, Multiset.add_cons, ih]

theorem liveAt_split {α : Type} (E : Nat → List (α × Nat)) (k : Nat) : ∀ n,
    ((liveAt E k n : List α) : Multiset α)
      = (↑(binContents E n (k + 1)) : Multiset α) + ↑(liveAt E (k + 1) n) := by
  intro n
  induction n with
  | zero => rfl
  | succ n ih =>
    have e1 : liveAt E k (n + 1) = liveAt E k n ++
        (E n).filterMap (fun p => if k ≤ n + p.2 then some p.1 else none) := rfl
    have e2 : liveAt E (k + 1) (n + 1) = liveAt E (k + 1) n ++
        (E n).filterMap (fun p => if k + 1 ≤ n + p.2 then some p.1 else none) := rfl
    have e3 : binContents E (n + 1) (k + 1) = binContents E n (k + 1) ++
        dueFrom (E n) n (k + 1) := rfl
    rw [e1, e2, e3, dueFrom, ← Multiset.coe_add, ← Multiset.coe_add,
      ← Multiset.coe_add, ih, filterMap_due_split n k (E n)]
    ac_rfl

theorem conservation {α : Type} (E : Nat → List (α × Nat)) {L : Nat}
    (hL : 0 < L) (Hd : ∀ t p, p ∈ E t → p.2 < L) : ∀ k,
    ((pushedUpTo E k : List α) : Multiset α)
      = (↑(deliveredUpTo E L k) : Multiset α) + ↑(liveAt E k k) := by
  intro k
  induction k with
  | zero => rfl
  | succ k ih =>
    have e1 : pushedUpTo E (k + 1) = pushedUpTo E k ++ (E k).map Prod.fst := rfl
    have e2 : deliveredUpTo E L (k + 1)
        = deliveredUpTo E L k ++ outputAt E L k := rfl
    have e3 : liveAt E (k + 1) (k + 1) = liveAt E (k + 1) k ++
        (E k).filterMap (fun p => if k + 1 ≤ k + p.2 then some p.1 else none) := rfl
    have e4 : binContents E (k + 1) (k + 1) = binContents E k (k + 1) ++
        dueFrom (E k) k (k + 1) := rfl
    rw [e1, e2, e3, ← Multiset.coe_add, ← Multiset.coe_add, ← Multiset.coe_add,
      ih, outputAt_eq E hL Hd k, e4, dueFrom, ← Multiset.coe_add,
      liveAt_split E k k, map_fst_split k (E k)]
    ac_rfl

theorem liveAt_drained {α : Type} (E : Nat → List (α × Nat)) (N : Nat)
    (hdrain : ∀ t p, t < N → p ∈ E t → t + p.2 < N) :
    ∀ n, n ≤ N → liveAt E N n = [] := by
  intro n
  induction n with
  | zero => intro _; rfl
  | succ n ih =>
    intro hn
    have e1 : liveAt E N (n + 1) = liveAt E N n ++
        (E n).filterMap (fun p => if N ≤ n + p.2 then some p.1 else none) := rfl
    rw [e1, ih (by omega), List.nil_append, List.filterMap_eq_nil_iff]
    intro p hp
    have := hdrain n p (by omega) hp
    rw [if_neg (by omega)]

/-! ## Claim theorems -/

/-- C1: over a run driven by the per-step function (advance, then push, then
peek) on the per-step spikespaces, a spike fired at step `t` from a source
whose synapse has delay `d` appears in `peek()`'s result exactly at step
`t + d` and at no other step; moreover the instrumented outputs project to
the peek results of the run the generated function actually performs. -/
theorem spike_delivery_exact (T : DelayTable) (SP : Nat → List Int)
    (NS : Nat → Nat) (L : Nat) (hL : 0 < L)
    (Hd : ∀ s p, p ∈ T.lookup s → p.2 < L)
    (t s j tg d : Nat) (u : Nat) (hs : s ∈ firingAt SP NS t)
    (hj : (T.lookup s).get? j = some (tg, d)) :
    ((((t, s, j, tg) : Tag) ∈ outputAt (taggedE T (firingAt SP NS)) L u) ↔ u = t + d)
    ∧ (outputAt (taggedE T (firingAt SP NS)) L u).map tagTarget
        = ((runSim T L SP NS (u + 1)).peekS).1 := by
  constructor
  · exact tagged_delivery hL Hd hs hj u
  · rw [runSim_eq_runFrom]
    show (outputAt (taggedE T (firingAt SP NS)) L u).map tagTarget
      = outputAt (fun t' => expandEvents T (firingAt SP NS t')) L u
    have hfun : (fun t' => (taggedE T (firingAt SP NS) t').map
          (fun p => (tagTarget p.1, p.2)))
        = fun t' => expandEvents T (firingAt SP NS t') :=
      funext (taggedE_proj T (firingAt SP NS))
    rw [← hfun, outputAt_map]

theorem spike_delivery_exact_witness :
    ((((1, 0, 0, 7) : Tag) ∈ outputAt (taggedE (buildTable [[(7, 2)]])
        (firingAt (fun t => if t = 1 then [0, 1] else [0])
          (fun t => if t = 1 then 2 else 1))) 3 3) ↔ (3 : Nat) = 1 + 2)
    ∧ (outputAt (taggedE (buildTable [[(7, 2)]])
        (firingAt (fun t => if t = 1 then [0, 1] else [0])
          (fun t => if t = 1 then 2 else 1))) 3 3).map tagTarget
        = ((runSim (buildTable [[(7, 2)]]) 3
            (fun t => if t = 1 then [0, 1] else [0])
            (fun t => if t = 1 then 2 else 1) 4).peekS).1 :=
  spike_delivery_exact (buildTable [[(7, 2)]])
    (fun t => if t = 1 then [0, 1] else [0]) (fun t => if t = 1 then 2 else 1)
    3 (by decide)
    (by
      intro s p hp
      cases s with
      | zero =>
        have h0 : (buildTable [[(7, 2)]]).lookup 0 = [(7, 2)] := rfl
        rw [h0] at hp
        simp at hp
        rw [hp]
        decide
      | succ m =>
        rw [lookup_build_high [[(7, 2)]] (m + 1) (by simp)] at hp
        simp at hp)
    1 0 0 7 2 3 (by decide) (by decide)

/-- C5: an event pushed with delay 0 is delivered at the very step it was
pushed — it is in the `peek()` of that same step (push happens after
advance in the generated per-step order), and in no other step's peek. -/
theorem delay_zero_same_step (T : DelayTable) (F : Nat → List Nat) (L : Nat)
    (hL : 0 < L) (Hd : ∀ s p, p ∈ T.lookup s → p.2 < L)
    (t s j tg u : Nat) (hs : s ∈ F t)
    (hj : (T.lookup s).get? j = some (tg, 0)) :
    (((t, s, j, tg) : Tag) ∈ outputAt (taggedE T F) L t)
    ∧ ((((t, s, j, tg) : Tag) ∈ outputAt (taggedE T F) L u) ↔ u = t) := by
  have h := tagged_delivery hL Hd hs hj
  refine ⟨(h t).mpr (by omega), ?_, ?_⟩
  · intro hm
    have := (h u).mp hm
    omega
  · intro hu
    exact (h u).mpr (by omega)

theorem delay_zero_same_step_witness :
    ((((4, 0, 0, 9) : Tag) ∈ outputAt (taggedE (buildTable [[(9, 0)]])
        (fun _ => [0])) 2 4)
    ∧ ((((4, 0, 0, 9) : Tag) ∈ outputAt (taggedE (buildTable [[(9, 0)]])
        (fun _ => [0])) 2 5) ↔ (5 : Nat) = 4)) :=
  delay_zero_same_step (buildTable [[(9, 0)]]) (fun _ => [0]) 2 (by decide)
    (by
      intro s p hp
      cases s with
      | zero =>
        have h0 : (buildTable [[(9, 0)]]).lookup 0 = [(9, 0)] := rfl
        rw [h0] at hp
        simp at hp
        rw [hp]
        decide
      | succ m =>
        rw [lookup_build_high [[(9, 0)]] (m + 1) (by simp)] at hp
        simp at hp)
    4 0 0 9 5 (by decide) (by decide)

/-- C6: an event pushed with the maximum representable delay
`bufferLength - 1` is delivered in `peek()`'s result at the correct absolute
step `t + (bufferLength - 1)` — i.e. after the bufferLength-th advance
counting from the advance of the step that pushed it — and at no other step,
so the wraparound of the cleared-and-reused bin does not corrupt it. -/
theorem max_delay_wraparound (T : DelayTable) (F : Nat → List Nat) (L : Nat)
    (hL : 0 < L) (Hd : ∀ s p, p ∈ T.lookup s → p.2 < L)
    (t s j tg u : Nat) (hs : s ∈ F t)
    (hj : (T.lookup s).get? j = some (tg, L - 1)) :
    (((t, s, j, tg) : Tag) ∈ outputAt (taggedE T F) L (t + (L - 1)))
    ∧ ((((t, s, j, tg) : Tag) ∈ outputAt (taggedE T F) L u) ↔ u = t + (L - 1)) := by
  have h := tagged_delivery hL Hd hs hj
  exact ⟨(h (t + (L - 1))).mpr rfl, h u⟩

theorem max_delay_wraparound_witness :
    ((((0, 0, 0, 4) : Tag) ∈ outputAt (taggedE (buildTable [[(4, 2)]])
        (fun t => if t = 0 then [0] else [])) 3 (0 + (3 - 1)))
    ∧ ((((0, 0, 0, 4) : Tag) ∈ outputAt (taggedE (buildTable [[(4, 2)]])
        (fun t => if t = 0 then [0] else [])) 3 5) ↔ (5 : Nat) = 0 + (3 - 1))) :=
  max_delay_wraparound (buildTable [[(4, 2)]])
    (fun t => if t = 0 then [0] else []) 3 (by decide)
    (by
      intro s p hp
      cases s with
      | zero =>
        have h0 : (buildTable [[(4, 2)]]).lookup 0 = [(4, 2)] := rfl
        rw [h0] at hp
        simp at hp
        rw [hp]
        decide
      | succ m =>
        rw [lookup_build_high [[(4, 2)]] (m + 1) (by simp)] at hp
        simp at hp)
    0 0 0 4 5 (by decide) (by decide)

/-- C7: `peek()` is idempotent and non-consuming — any number of repeated
peeks before the next advance all return the same collection and leave the
queue state (cursor and every bin) unchanged. -/
theorem peek_idempotent {α : Type} (q : SpikeQueue α) (n : Nat) :
    peekN q n = (List.replicate n (q.peekS).1, q) := by
  induction n with
  | zero => rfl
  | succ n ih =>
    show ((q.peekS).1 :: (peekN q n).1, (peekN q n).2)
      = (List.replicate (n + 1) (q.peekS).1, q)
    rw [ih, List.replicate_succ]

/-- C2 (counterexample): the claim as stated fails on a truncated run — one
step, one event pushed with delay 1: the push happened but nothing was ever
delivered, so the two multisets differ. -/
theorem conservation_counterexample :
    ¬ (((deliveredUpTo (fun _ => [((5 : Nat), 1)]) 2 1 : List Nat) : Multiset Nat)
        = ↑(pushedUpTo (fun _ => [((5 : Nat), 1)]) 1)) := by
  decide

/-- C2 (amended): over a whole run that outlives its pushes — every event
pushed at step `t` with delay `dl` has its delivery step `t + dl` inside the
run — the multiset of everything `peek()` ever returned equals the multiset
of the targets of all (target, delay) entries pushed: nothing is lost or
duplicated. -/
theorem conservation_amended {α : Type} (E : Nat → List (α × Nat)) (L N : Nat)
    (hL : 0 < L) (Hd : ∀ t p, p ∈ E t → p.2 < L)
    (hdrain : ∀ t p, t < N → p ∈ E t → t + p.2 < N) :
    ((deliveredUpTo E L N : List α) : Multiset α) = ↑(pushedUpTo E N) := by
  have h := conservation E hL Hd N
  rw [liveAt_drained E N hdrain N (Nat.le_refl N)] at h
  simpa using h.symm

theorem conservation_amended_witness :
    ((deliveredUpTo (fun t => if t = 0 then [((5 : Nat), 1)] else []) 2 3 : List Nat) : Multiset Nat)
      = ↑(pushedUpTo (fun t => if t = 0 then [((5 : Nat), 1)] else []) 3) :=
  conservation_amended (fun t => if t = 0 then [((5 : Nat), 1)] else []) 2 3
    (by decide)
    (by
      intro t p hp
      cases t with
      | zero =>
        simp at hp
        rw [hp]
        decide
      | succ m =>
        simp at hp)
    (by
      intro t p ht hp
      cases t with
      | zero =>
        simp at hp
        rw [hp]
        decide
      | succ m =>
        simp at hp)

/-- C3: the ring-buffer invariant holds at every point of every run — right
after the `advance()` of step `k` the bin at `(cursor + d) mod bufferLength`
holds exactly the targets scheduled with remaining delay `d` among the
events pushed before step `k` (for every `d < bufferLength`, and in
particular the bin at the cursor holds the targets whose delivery step is
the current step `k`); right after `push` the same holds with step `k`'s
events included; and `peek` changes nothing, so every operation preserves
the invariant. -/
theorem ring_buffer_invariant {α : Type} (E : Nat → List (α × Nat)) (L : Nat)
    (hL : 0 < L) (Hd : ∀ t p, p ∈ E t → p.2 < L) (k : Nat) :
    ((runFrom E L k).advance).cursor = (k + 1) % L
    ∧ (∀ d, d < L →
        getBin ((runFrom E L k).advance).bins
          ((((runFrom E L k).advance).cursor + d) % L) = binContents E k (k + 1 + d))
    ∧ getBin ((runFrom E L k).advance).bins ((runFrom E L k).advance).cursor
        = binContents E k (k + 1)
    ∧ (stepEvents (runFrom E L k) (E k)).cursor = (k + 1) % L
    ∧ (∀ d, d < L →
        getBin (stepEvents (runFrom E L k) (E k)).bins
          (((stepEvents (runFrom E L k) (E k)).cursor + d) % L)
          = binContents E (k + 1) (k + 1 + d))
    ∧ ((stepEvents (runFrom E L k) (E k)).peekS).2
        = stepEvents (runFrom E L k) (E k) := by
  obtain ⟨aB, alen, ac, achar⟩ := advance_inv Hd (runFrom_inv E hL Hd k)
  obtain ⟨pB, plen, pc, pchar⟩ := runFrom_inv E hL Hd (k + 1)
  have hstep : runFrom E L (k + 1) = stepEvents (runFrom E L k) (E k) := rfl
  rw [hstep] at pB plen pc pchar
  refine ⟨ac, ?_, ?_, pc, ?_, rfl⟩
  · intro d hd
    rw [ac, Nat.mod_add_mod]
    exact achar d hd
  · have h0 := achar 0 hL
    rw [Nat.add_zero] at h0
    rw [ac]
    exact h0
  · intro d hd
    rw [pc, Nat.mod_add_mod]
    exact pchar d hd

theorem ring_buffer_invariant_witness :
    getBin ((runFrom (fun _ => [((3 : Nat), 0), (4, 1)]) 2 1).advance).bins
      ((((runFrom (fun _ => [((3 : Nat), 0), (4, 1)]) 2 1).advance).cursor + 0) % 2)
      = binContents (fun _ => [((3 : Nat), 0), (4, 1)]) 1 (1 + 1 + 0) :=
  (ring_buffer_invariant (fun _ => [((3 : Nat), 0), (4, 1)]) 2 (by decide)
    (by
      intro t p hp
      simp at hp
      rcases hp with h | h <;> rw [h] <;> decide)
    1).2.1 0 (by decide)

/-- C4: the generated per-step function performs exactly the call sequence
advance, push(spikespace, spikespace[numSpikespace-1]), peek — three calls,
in that order, once each and nothing else — and executing that call list is
the per-step function. -/
theorem per_step_call_order (T : DelayTable) (q : SpikeQueue Nat)
    (sp : List Int) (n : Nat) :
    execCalls T q (runStepCalls sp n) = runStep T q sp n
    ∧ (runStepCalls sp n).length = 3
    ∧ (runStepCalls sp n).get? 0 = some QueueCall.advanceCall
    ∧ (runStepCalls sp n).get? 1
        = some (QueueCall.pushCall sp (sp.getD (n - 1) 0))
    ∧ (runStepCalls sp n).get? 2 = some QueueCall.peekCall :=
  ⟨rfl, rfl, rfl, rfl, rfl⟩

/-- C8: `lookup` is total on valid sources — for every `s < numSources` of a
built table it returns exactly that source's (target, delay) list (the empty
list when the source has no outgoing synapses), and it does not modify the
table. -/
theorem lookup_total (perSource : List (List (Nat × Nat))) (s : Nat)
    (h : s < (buildTable perSource).numSources) :
    (buildTable perSource).lookup s = perSource.getD s []
    ∧ ((buildTable perSource).lookupS s).1 = perSource.getD s []
    ∧ ((buildTable perSource).lookupS s).2 = buildTable perSource := by
  have h' : s < perSource.length := by rwa [numSources_build] at h
  exact ⟨lookup_build perSource s h', lookup_build perSource s h', rfl⟩

theorem lookup_total_witness :
    ((buildTable [[(2, 1)], []]).lookup 1 = [[(2, 1)], []].getD 1 []
    ∧ ((buildTable [[(2, 1)], []]).lookupS 1).1 = [[(2, 1)], []].getD 1 []
    ∧ ((buildTable [[(2, 1)], []]).lookupS 1).2 = buildTable [[(2, 1)], []]) :=
  lookup_total [[(2, 1)], []] 1 (by decide)

/-- C9: the generated function reads the firing count from the last element
of the spikespace backing array and hands the array plus that count to
`push`; the step's effect depends only on that count slot and the first
count entries, never on a terminator scan of the rest of the array. -/
theorem spikespace_count_convention (T : DelayTable) (q : SpikeQueue Nat)
    (A B : List Int) (n : Nat) (c : Int)
    (hA : A.getD (n - 1) 0 = c) (hB : B.getD (n - 1) 0 = c)
    (hpre : A.take c.toNat = B.take c.toNat) :
    runStep T q A n = runStep T q B n
    ∧ runStep T q A n
        = (q.advance).pushSources T ((A.take c.toNat).map Int.toNat) := by
  have eA : runStep T q A n
      = (q.advance).pushSpikes T A (A.getD (n - 1) 0) := rfl
  have eB : runStep T q B n
      = (q.advance).pushSpikes T B (B.getD (n - 1) 0) := rfl
  constructor
  · rw [eA, eB, SpikeQueue.pushSpikes, SpikeQueue.pushSpikes, hA, hB, hpre]
  · rw [eA, SpikeQueue.pushSpikes, hA]

theorem spikespace_count_convention_witness :
    (runStep (buildTable [[(7, 2)]]) (emptyQueue Nat 3) [0, -1, 1] 3
      = runStep (buildTable [[(7, 2)]]) (emptyQueue Nat 3) [0, 7, 1] 3
    ∧ runStep (buildTable [[(7, 2)]]) (emptyQueue Nat 3) [0, -1, 1] 3
        = ((emptyQueue Nat 3).advance).pushSources (buildTable [[(7, 2)]])
            ((([0, -1, 1] : List Int).take (1 : Int).toNat).map Int.toNat)) :=
  spikespace_count_convention (buildTable [[(7, 2)]]) (emptyQueue Nat 3)
    [0, -1, 1] [0, 7, 1] 3 1 (by decide) (by decide) (by decide)

/-- C10: the generated function is a void function whose only effect is on
the queue it drives: the spikespace array, its size and all other program
state are unchanged, the value `peek()` returned is discarded (the final
queue state is exactly advance-then-push), and nothing is returned. -/
theorem frame_effects {σ : Type} (T : DelayTable) (w : World σ) :
    (runStepWorld T w).1.spikespace = w.spikespace
    ∧ (runStepWorld T w).1.numSpikespace = w.numSpikespace
    ∧ (runStepWorld T w).1.rest = w.rest
    ∧ (runStepWorld T w).2 = ()
    ∧ (runStepWorld T w).1.queue
        = ((w.queue.advance).pushSpikes T w.spikespace
            (w.spikespace.getD (w.numSpikespace - 1) 0)) :=
  ⟨rfl, rfl, rfl, rfl, rfl⟩

end Brian2
